import Mathlib

/-!
Shallow embedding of the gtsam noise-model hierarchy (NoiseModel.h /
NoiseModel.cpp) and of the LinearizedFactor adapter
(gtsam_unstable/nonlinear/LinearizedFactor.cpp).

Machine doubles are modelled as rationals.  Vectors are lists of rationals
and dense matrices are lists of rows.  The IEEE infinity produced by
`ediv_` on a zero sigma is modelled by a dedicated value `DVal.inf`, since
no rational represents it.  The square-root information matrix of the
Gaussian model is modelled as a function of two indices together with an
explicit dimension, which matches the dense `dim x dim` storage.
-/

namespace gtsam

/-- Vectors: `gtsam::Vector` (a dense vector of doubles). -/
abbrev Vec := List ℚ

/-- Matrices: `gtsam::Matrix`, stored as a list of rows. -/
abbrev Mat := List (List ℚ)

/-- Elementwise sum of two vectors (`operator+`). -/
def vadd (a b : Vec) : Vec := List.zipWith (· + ·) a b

/-- Elementwise difference of two vectors (`operator-`). -/
def vsub (a b : Vec) : Vec := List.zipWith (· - ·) a b

/-- Elementwise negation of a vector (unary `operator-`). -/
def vneg (a : Vec) : Vec := a.map (fun x => -x)

/-- Modelled from the spec: `emul` from the repository's Vector utilities
(not under src/), the elementwise product of two vectors. -/
def emul (a b : Vec) : Vec := List.zipWith (· * ·) a b

/-- Inner product of two vectors (`inner_prod` / `Vector::dot`). -/
def dotQ (a b : Vec) : ℚ := (List.zipWith (· * ·) a b).sum

/-- Dense matrix-vector product: row `i` of the result is `⟨row i, x⟩`. -/
def matVec (M : Mat) (x : Vec) : Vec := M.map (fun row => dotQ row x)

/-- Modelled from the spec: `reciprocal` from the repository's Vector
utilities (not under src/), the elementwise reciprocal used to build
`invsigmas` from `sigmas` (on the nonzero entries; at a zero entry C++
doubles give IEEE infinity, which no claim relies on, and the rational
convention `1 / 0 = 0` is used here). -/
def reciprocal (v : Vec) : Vec := v.map (fun s => 1 / s)

/-- Entry `(i, j)` of a list-of-rows matrix, `0` out of range. -/
def entryQ (M : Mat) (i j : ℕ) : ℚ := (M.getD i []).getD j 0

/-- `selfadjointView<Eigen::Upper>`: the symmetric matrix obtained by
reading only the upper triangle of `M` and mirroring it below. -/
def selfadjointUpper (M : Mat) : Mat :=
  (List.range M.length).map (fun i =>
    (List.range M.length).map (fun j =>
      if i ≤ j then entryQ M i j else entryQ M j i))

/-- `equal_with_abs_tol` on vectors: same length, entries within `tol`. -/
def equal_with_abs_tol (a b : Vec) (tol : ℚ) : Bool :=
  (a.length == b.length) &&
    (List.zipWith (fun x y => decide (|x - y| ≤ tol)) a b).all (fun x => x)

/-- Inner product over `n`-entry functional vectors (`inner_prod`). -/
def dotFn (n : ℕ) (a b : ℕ → ℚ) : ℚ := ∑ i ∈ Finset.range n, a i * b i

/-- `backSubstituteUpper R b`: solve the upper-triangular system
`R x = b` by back substitution, from the last row up.  (The routine
lives in the repository's Matrix utilities; this is the standard
back-substitution recurrence it implements:
`x i = (b i - Σ_{j>i} R i j * x j) / R i i`.) -/
def backSubstituteUpper (n : ℕ) (R : ℕ → ℕ → ℚ) (b : ℕ → ℚ) (i : ℕ) : ℚ :=
  (b i - ∑ j ∈ (Finset.Ico (i + 1) n).attach,
      R i j.1 * backSubstituteUpper n R b j.1) / R i i
termination_by n - i
decreasing_by
  have hj := j.2
  rw [Finset.mem_Ico] at hj
  omega

namespace noiseModel

/-- Error taxonomy of the noise-model layer (§7 of the spec): the only
error raised inside the embedded code paths is `UnsupportedOperation`,
thrown (as `std::logic_error`) by `Constrained::Whiten`. -/
inductive ModelError where
  | UnsupportedOperation (msg : String)
deriving DecidableEq

/-- A double produced by `ediv_`: either a finite value or the IEEE
infinity used as the infeasibility marker for violated hard constraints. -/
inductive DVal where
  | fin (q : ℚ)
  | inf
deriving DecidableEq

/-- Modelled from the spec: `ediv_` from the repository's Vector utilities
(not under src/).  Per §4.3 (and the Constrained class comment in
NoiseModel.h): ordinary elementwise division where the divisor is nonzero;
on a zero divisor the result is `0` when the numerator is `0` and the
infinite infeasibility value otherwise. -/
def ediv (a s : ℚ) : DVal :=
  if s = 0 then (if a = 0 then .fin 0 else .inf) else .fin (a / s)

/-- Modelled from the spec: elementwise `ediv_` over vectors. -/
def ediv_ (a s : Vec) : List DVal := List.zipWith ediv a s

/-- The numeric value of a finite `DVal` (the infinite marker, excluded
by every law that uses this, is mapped to `0`). -/
def DVal.toRat : DVal → ℚ
  | .fin q => q
  | .inf => 0

/-- `noiseModel::Gaussian`: holds the dimension and the square-root
information matrix `R` (dense `dim x dim`). -/
structure Gaussian where
  dim : ℕ
  sqrt_information : ℕ → ℕ → ℚ

/-- `Gaussian::whiten(v) = sqrt_information_ * v`. -/
def Gaussian.whiten (m : Gaussian) (v : ℕ → ℚ) : ℕ → ℚ :=
  fun i => ∑ j ∈ Finset.range m.dim, m.sqrt_information i j * v j

/-- `Gaussian::unwhiten(v) = backSubstituteUpper(sqrt_information_, v)`. -/
def Gaussian.unwhiten (m : Gaussian) (v : ℕ → ℚ) : ℕ → ℚ :=
  backSubstituteUpper m.dim m.sqrt_information v

/-- `Gaussian::Mahalanobis(v)`: `w = whiten(v); inner_prod(w, w)`. -/
def Gaussian.Mahalanobis (m : Gaussian) (v : ℕ → ℚ) : ℚ :=
  dotFn m.dim (m.whiten v) (m.whiten v)

/-- `noiseModel::Diagonal`: stores `sigmas_` (the constructor also stores
`invsigmas_ = reciprocal(sigmas)`, recovered here by `Diagonal.invsigmas`). -/
structure Diagonal where
  sigmas : Vec

/-- `invsigmas_`, as computed by the `Diagonal` constructor. -/
def Diagonal.invsigmas (m : Diagonal) : Vec := reciprocal m.sigmas

/-- `Diagonal::whiten(v) = emul(v, invsigmas_)`. -/
def Diagonal.whiten (m : Diagonal) (v : Vec) : Vec := emul v m.invsigmas

/-- `Diagonal::unwhiten(v) = emul(v, sigmas_)`. -/
def Diagonal.unwhiten (m : Diagonal) (v : Vec) : Vec := emul v m.sigmas

/-- `Diagonal` inherits `Gaussian::Mahalanobis`, whose virtual `whiten`
call dispatches to `Diagonal::whiten`. -/
def Diagonal.Mahalanobis (m : Diagonal) (v : Vec) : ℚ :=
  dotQ (m.whiten v) (m.whiten v)

/-- Factory `Diagonal::Sigmas`. -/
def Diagonal.Sigmas (sigmas : Vec) : Diagonal := ⟨sigmas⟩

/-- `noiseModel::Constrained`: a `Diagonal` whose sigmas may be zero. -/
structure Constrained where
  sigmas : Vec

/-- `Constrained::whiten(v) = ediv_(v, sigmas_)`. -/
def Constrained.whiten (m : Constrained) (v : Vec) : List DVal :=
  ediv_ v m.sigmas

/-- `Constrained` inherits `Diagonal::unwhiten`: `emul(v, sigmas_)`. -/
def Constrained.unwhiten (m : Constrained) (v : Vec) : Vec :=
  Diagonal.unwhiten ⟨m.sigmas⟩ v

/-- `Constrained::Whiten(H)`: `throw logic_error("noiseModel::Constrained
cannot Whiten")`; never returns a matrix. -/
def Constrained.Whiten (_ : Constrained) (_ : Mat) : Except ModelError Mat :=
  .error (.UnsupportedOperation "noiseModel::Constrained cannot Whiten")

/-- `Constrained::WhitenInPlace(H)`: same exception. -/
def Constrained.WhitenInPlace (_ : Constrained) (_ : Mat) : Except ModelError Mat :=
  .error (.UnsupportedOperation "noiseModel::Constrained cannot Whiten")

/-- Factory `Constrained::Mixed`. -/
def Constrained.Mixed (sigmas : Vec) : Constrained := ⟨sigmas⟩

/-- Factory `Constrained::All`: `Mixed(repeat(dim, 0))`. -/
def Constrained.All (dim : ℕ) : Constrained := Mixed (List.replicate dim 0)

/-- `noiseModel::Isotropic`: a single `sigma_` over `dim` components
(the constructor also stores `invsigma_ = 1 / sigma`). -/
structure Isotropic where
  dim : ℕ
  sigma : ℚ

/-- `invsigma_`, as computed by the `Isotropic` constructor. -/
def Isotropic.invsigma (m : Isotropic) : ℚ := 1 / m.sigma

/-- The `Diagonal`-base sigmas of an `Isotropic` model: `repeat(dim, sigma)`. -/
def Isotropic.sigmas (m : Isotropic) : Vec := List.replicate m.dim m.sigma

/-- `Isotropic::whiten(v) = v * invsigma_`. -/
def Isotropic.whiten (m : Isotropic) (v : Vec) : Vec :=
  v.map (fun x => x * m.invsigma)

/-- `Isotropic::unwhiten(v) = v * sigma_`. -/
def Isotropic.unwhiten (m : Isotropic) (v : Vec) : Vec :=
  v.map (fun x => x * m.sigma)

/-- `Isotropic::Mahalanobis(v) = inner_prod(v, v) * invsigma_ * invsigma_`. -/
def Isotropic.Mahalanobis (m : Isotropic) (v : Vec) : ℚ :=
  dotQ v v * m.invsigma * m.invsigma

/-- Factory `Isotropic::Sigma`. -/
def Isotropic.Sigma (dim : ℕ) (sigma : ℚ) : Isotropic := ⟨dim, sigma⟩

/-- `noiseModel::Unit`: an `Isotropic` with `sigma = 1`. -/
structure Unit where
  dim : ℕ
deriving DecidableEq

/-- `Unit::whiten(v) = v`. -/
def Unit.whiten (_ : Unit) (v : Vec) : Vec := v

/-- `Unit::unwhiten(v) = v`. -/
def Unit.unwhiten (_ : Unit) (v : Vec) : Vec := v

/-- `Unit::Mahalanobis(v) = inner_prod(v, v)`. -/
def Unit.Mahalanobis (_ : Unit) (v : Vec) : ℚ := dotQ v v

/-- Factory `Unit::Create`. -/
def Unit.Create (dim : ℕ) : Unit := ⟨dim⟩

end noiseModel

/-- The manifold capability of a stored `Value` (§6 of the spec): a
tangent dimension `dim()`, the local-coordinates map `localCoordinates_`
(called as `localCoordinates p q`, the tangent delta at `p` pointing to
`q`), and a tolerance comparison `equals`. -/
class Value (P : Type) where
  localCoordinates : P → P → Vec
  dim : P → ℕ
  equals : P → P → ℚ → Bool

/-- `LieVector`: a plain vector as a manifold value.
`localCoordinates_(q) = q - this`, `dim` is the length, and `equals` is
`equal_with_abs_tol`. -/
instance instValueVec : Value Vec :=
  ⟨fun p q => vsub q p, List.length, fun p q tol => equal_with_abs_tol p q tol⟩

/-- `LinearizedJacobianFactor`: ordered key list, snapshot of the
linearization-point values, and the row-wise blocks `A` per key next to
the right-hand side `b` (the `Ab_` block matrix, split by key). -/
structure LinearizedJacobianFactor (P : Type) where
  keys : List ℕ
  lin_points : ℕ → P
  A : ℕ → Mat
  b : Vec

/-- The row dimension of the factor (`dim()` = number of rows of `Ab_`,
the length of `b`). -/
def LinearizedJacobianFactor.dim {P : Type} (f : LinearizedJacobianFactor P) : ℕ :=
  f.b.length

/-- `LinearizedJacobianFactor::error_vector(c)`: start from `-b`, then
for each key add `A(key) * d` where `d = linPt.localCoordinates_(newPt)`. -/
def LinearizedJacobianFactor.error_vector {P : Type} [Value P]
    (f : LinearizedJacobianFactor P) (c : ℕ → P) : Vec :=
  f.keys.foldl
    (fun acc k =>
      vadd acc (matVec (f.A k) (Value.localCoordinates (f.lin_points k) (c k))))
    (vneg f.b)

/-- `LinearizedJacobianFactor::error(c) = 0.5 * errorVector.dot(errorVector)`. -/
def LinearizedJacobianFactor.error {P : Type} [Value P]
    (f : LinearizedJacobianFactor P) (c : ℕ → P) : ℚ :=
  (1 / 2) * dotQ (f.error_vector c) (f.error_vector c)

/-- The data of the `JacobianFactor` built by
`LinearizedJacobianFactor::linearize`: `(index, A-block)` terms, the
right-hand side, and the attached noise model (always a `Unit` model in
this code path). -/
structure JacobianFactorData where
  terms : List (ℕ × Mat)
  b : Vec
  model : noiseModel.Unit

/-- `LinearizedJacobianFactor::linearize(c, ordering)`: re-emit the `A`
blocks against the new indices `ordering[key]`, set the right-hand side
to `-error_vector(c)`, and tag the result with `Unit::Create(dim())`. -/
def LinearizedJacobianFactor.linearize {P : Type} [Value P]
    (f : LinearizedJacobianFactor P) (c : ℕ → P) (ordering : ℕ → ℕ) :
    JacobianFactorData :=
  ⟨f.keys.map (fun k => (ordering k, f.A k)),
   vneg (f.error_vector c),
   noiseModel.Unit.Create f.dim⟩

/-- `LinearizedHessianFactor`: ordered key list, snapshot of the
linearization-point values, and the blocks of the augmented information
matrix `info_ = [[G, g], [gᵀ, f]]`: the (upper-triangle-stored) squared
term `G`, the linear term `g`, and the constant term `f` held in the
trailing scalar corner. -/
structure LinearizedHessianFactor (P : Type) where
  keys : List ℕ
  lin_points : ℕ → P
  G : Mat
  g : Vec
  f : ℚ

/-- `squaredTerm()`: the `G` block of `info_`. -/
def LinearizedHessianFactor.squaredTerm {P : Type}
    (m : LinearizedHessianFactor P) : Mat := m.G

/-- `linearTerm()`: the `g` column of `info_`. -/
def LinearizedHessianFactor.linearTerm {P : Type}
    (m : LinearizedHessianFactor P) : Vec := m.g

/-- `constantTerm()`: the trailing scalar corner of `info_`. -/
def LinearizedHessianFactor.constantTerm {P : Type}
    (m : LinearizedHessianFactor P) : ℚ := m.f

/-- The stacked delta `dx` built by `error` and `linearize`: for each key
in key order, the segment `linPt.localCoordinates_(newPt)`; the segments
are laid out consecutively, i.e. concatenated. -/
def LinearizedHessianFactor.dx {P : Type} [Value P]
    (m : LinearizedHessianFactor P) (c : ℕ → P) : Vec :=
  (m.keys.map (fun k => Value.localCoordinates (m.lin_points k) (c k))).flatten

/-- `LinearizedHessianFactor::error(c) = 0.5 * (f - 2 * dx.dot(g) +
dxᵀ * G.selfadjointView * dx)`. -/
def LinearizedHessianFactor.error {P : Type} [Value P]
    (m : LinearizedHessianFactor P) (c : ℕ → P) : ℚ :=
  (1 / 2) * (m.constantTerm - 2 * dotQ (m.dx c) m.linearTerm
    + dotQ (m.dx c) (matVec (selfadjointUpper m.squaredTerm) (m.dx c)))

/-- The data of the `HessianFactor` built by
`LinearizedHessianFactor::linearize`: the new indices `js`, the squared
blocks `Gs` (emitted unchanged, concatenated back into one matrix here),
the linear-term segments `gs` (concatenated back into one vector), and
the constant term `f`. -/
structure HessianFactorData where
  js : List ℕ
  Gs : Mat
  gs : Vec
  f : ℚ

/-- `LinearizedHessianFactor::linearize(c, ordering)`:
`f2 = f1 - 2 * dx.dot(g1) + dxᵀ * G1.selfadjointView * dx`,
`g2 = g1 - G1.selfadjointView * dx`, `G2 = G1` (unchanged), with the new
indices `ordering[key]`. -/
def LinearizedHessianFactor.linearize {P : Type} [Value P]
    (m : LinearizedHessianFactor P) (c : ℕ → P) (ordering : ℕ → ℕ) :
    HessianFactorData :=
  ⟨m.keys.map ordering,
   m.squaredTerm,
   vsub m.linearTerm (matVec (selfadjointUpper m.squaredTerm) (m.dx c)),
   m.constantTerm - 2 * dotQ (m.dx c) m.linearTerm
     + dotQ (m.dx c) (matVec (selfadjointUpper m.squaredTerm) (m.dx c))⟩

/-- Entry `(i, j)` of the augmented information matrix `info_` of a
`LinearizedHessianFactor` (conceptually `(n+1) x (n+1)` for `n = |G|`):
the `G` block, the `g` column, and the constant term `f` in the corner.
Only the upper triangle is ever read (through `selfadjointView`). -/
def LinearizedHessianFactor.infoEntry {P : Type}
    (m : LinearizedHessianFactor P) (i j : ℕ) : ℚ :=
  if i < m.G.length then
    (if j < m.G.length then entryQ m.G i j
     else if j = m.G.length then m.g.getD i 0
     else 0)
  else if i = m.G.length ∧ j = m.G.length then m.f
  else 0

/-- `info_.full().selfadjointView<Eigen::Upper>()`: the symmetric matrix
read from the upper triangle of the augmented information matrix. -/
def LinearizedHessianFactor.symInfo {P : Type}
    (m : LinearizedHessianFactor P) (i j : ℕ) : ℚ :=
  if i ≤ j then m.infoEntry i j else m.infoEntry j i

/-- The matrix actually compared by `LinearizedHessianFactor::equals`:
the selfadjoint view of `info_` with the trailing scalar corner
(`thisMatrix(rows-1, cols-1)`) forced to zero. -/
def LinearizedHessianFactor.comparedMatrix {P : Type}
    (m : LinearizedHessianFactor P) : ℕ → ℕ → ℚ :=
  fun i j => if i = m.G.length ∧ j = m.G.length then 0 else m.symInfo i j

/-- `equal_with_abs_tol` on two `d x d` functional matrices. -/
def equalWithAbsTolFn (d : ℕ) (A B : ℕ → ℕ → ℚ) (tol : ℚ) : Bool :=
  decide (∀ i < d, ∀ j < d, |A i j - B i j| ≤ tol)

/-- Modelled from the spec: the base-class equality check invoked as
`Base::equals(expected, tol)` (declared in LinearizedFactor.h, which is
not under src/).  Per §4.6 it compares the key lists and, separately
from the matrix comparison, the constant term `f`. -/
def LinearizedHessianFactor.baseEquals {P : Type}
    (a b : LinearizedHessianFactor P) (tol : ℚ) : Bool :=
  (a.keys == b.keys) && decide (|a.f - b.f| ≤ tol)

/-- Modelled from the spec: `lin_points_.equals(e->lin_points_, tol)`
(`Values::equals` is not under src/), comparing the stored linearization
points of the common keys within tolerance. -/
def LinearizedHessianFactor.linPointsEquals {P : Type} [Value P]
    (a b : LinearizedHessianFactor P) (tol : ℚ) : Bool :=
  (a.keys == b.keys) &&
    a.keys.all (fun k => Value.equals (a.lin_points k) (b.lin_points k) tol)

/-- `LinearizedHessianFactor::equals`: `Base::equals && lin_points_.equals
&& equal_with_abs_tol(thisMatrix, rhsMatrix, tol)` where both compared
matrices are the selfadjoint view of `info_` with the corner zeroed. -/
def LinearizedHessianFactor.equals {P : Type} [Value P]
    (a b : LinearizedHessianFactor P) (tol : ℚ) : Bool :=
  a.baseEquals b tol && a.linPointsEquals b tol &&
    equalWithAbsTolFn (a.G.length + 1) a.comparedMatrix b.comparedMatrix tol

/-! Helper lemmas. -/

theorem getD_zipWith {α β γ : Type} (f : α → β → γ) :
    ∀ (a : List α) (b : List β) (i : ℕ) (d : γ) (d1 : α) (d2 : β),
      i < a.length → i < b.length →
      (List.zipWith f a b).getD i d = f (a.getD i d1) (b.getD i d2) := by
  intro a
  induction a with
  | nil => intro b i d d1 d2 h1 _; simp at h1
  | cons x xs ih =>
    intro b i d d1 d2 h1 h2
    cases b with
    | nil => simp at h2
    | cons y ys =>
      cases i with
      | zero => simp
      | succ n =>
        simp only [List.zipWith_cons_cons, List.getD_cons_succ]
        exact ih ys n d d1 d2 (by simpa using h1) (by simpa using h2)

theorem dotQ_cons (x y : ℚ) (xs ys : Vec) :
    dotQ (x :: xs) (y :: ys) = x * y + dotQ xs ys := by
  simp [dotQ]

theorem dotQ_nil_left (ys : Vec) : dotQ [] ys = 0 := by
  simp [dotQ]

/-- A dot product against an all-zero left operand is zero, with no
length requirement (`zipWith` truncates). -/
theorem dotQ_zero_left : ∀ (xs ys : Vec), (∀ x ∈ xs, x = 0) → dotQ xs ys = 0 := by
  intro xs
  induction xs with
  | nil => intro ys _; simp [dotQ]
  | cons x xs ih =>
    intro ys hz
    cases ys with
    | nil => simp [dotQ]
    | cons y ys =>
      rw [dotQ_cons, hz x (by simp), ih ys (fun a ha => hz a (by simp [ha]))]
      ring

/-- A dot product against an all-zero right operand is zero. -/
theorem dotQ_zero_right : ∀ (xs ys : Vec), (∀ y ∈ ys, y = 0) → dotQ xs ys = 0 := by
  intro xs
  induction xs with
  | nil => intro ys _; simp [dotQ]
  | cons x xs ih =>
    intro ys hz
    cases ys with
    | nil => simp [dotQ]
    | cons y ys =>
      rw [dotQ_cons, hz y (by simp), ih ys (fun a ha => hz a (by simp [ha]))]
      ring

theorem matVec_all_zero (M : Mat) (x : Vec) (hx : ∀ a ∈ x, a = 0) :
    matVec M x = List.replicate M.length 0 := by
  unfold matVec
  rw [List.eq_replicate_iff]
  refine ⟨by simp, ?_⟩
  intro b hb
  rcases List.mem_map.mp hb with ⟨row, _, hrow⟩
  rw [← hrow]
  exact dotQ_zero_right row x hx

theorem vadd_replicate_zero : ∀ (l : Vec) (n : ℕ), l.length ≤ n →
    vadd l (List.replicate n 0) = l := by
  intro l
  induction l with
  | nil => intro n _; simp [vadd]
  | cons x xs ih =>
    intro n hn
    cases n with
    | zero => simp at hn
    | succ m =>
      simp only [List.replicate_succ, vadd, List.zipWith_cons_cons, add_zero]
      have := ih m (by simpa using hn)
      simpa [vadd] using this

theorem vsub_replicate_zero : ∀ (l : Vec) (n : ℕ), l.length ≤ n →
    vsub l (List.replicate n 0) = l := by
  intro l
  induction l with
  | nil => intro n _; simp [vsub]
  | cons x xs ih =>
    intro n hn
    cases n with
    | zero => simp at hn
    | succ m =>
      simp only [List.replicate_succ, vsub, List.zipWith_cons_cons, sub_zero]
      have := ih m (by simpa using hn)
      simpa [vsub] using this

theorem vneg_vneg (l : Vec) : vneg (vneg l) = l := by
  simp [vneg, List.map_map, Function.comp]

/-! Claim theorems. -/

/-- C1: for a Constrained model, `whiten(v)[i] = v[i] / sigmas[i]` on
components with `sigmas[i] > 0`; on components with `sigmas[i] = 0` the
whitened value is `0` when `v[i] = 0` and the infinite infeasibility
value when `v[i] ≠ 0`.  With `sigmas = [0, 1]`: `whiten [0, 2] = [0, 2]`
and `whiten [5, 2] = [inf, 2]`. -/
theorem constrained_whiten_policy :
    (∀ (m : noiseModel.Constrained) (v : Vec) (i : ℕ),
      i < v.length → i < m.sigmas.length →
      ((0 < m.sigmas.getD i 0 →
          (m.whiten v).getD i (.fin 0) =
            .fin (v.getD i 0 / m.sigmas.getD i 0)) ∧
       (m.sigmas.getD i 0 = 0 →
          ((v.getD i 0 = 0 → (m.whiten v).getD i (.fin 0) = .fin 0) ∧
           (v.getD i 0 ≠ 0 →
              (m.whiten v).getD i (.fin 0) = noiseModel.DVal.inf))))) ∧
    (noiseModel.Constrained.Mixed [0, 1]).whiten [0, 2] = [.fin 0, .fin 2] ∧
    (noiseModel.Constrained.Mixed [0, 1]).whiten [5, 2] =
      [noiseModel.DVal.inf, .fin 2] := by
  refine ⟨?_,
    by norm_num [noiseModel.Constrained.whiten, noiseModel.ediv_,
      noiseModel.ediv, noiseModel.Constrained.Mixed],
    by norm_num [noiseModel.Constrained.whiten, noiseModel.ediv_,
      noiseModel.ediv, noiseModel.Constrained.Mixed]⟩
  intro m v i hv hs
  have hget : (m.whiten v).getD i (.fin 0) =
      noiseModel.ediv (v.getD i 0) (m.sigmas.getD i 0) := by
    have := getD_zipWith noiseModel.ediv v m.sigmas i
      (noiseModel.ediv 0 0) 0 0 hv hs
    simpa [noiseModel.Constrained.whiten, noiseModel.ediv_, noiseModel.ediv]
      using this
  constructor
  · intro hpos
    rw [hget]
    unfold noiseModel.ediv
    rw [if_neg (by exact ne_of_gt hpos)]
  · intro hzero
    constructor
    · intro hv0
      rw [hget, hzero, hv0]
      simp [noiseModel.ediv]
    · intro hv0
      rw [hget, hzero]
      simp only [noiseModel.ediv, if_true]
      rw [if_neg hv0]

/-- C1 witness: the general part of `constrained_whiten_policy`
instantiated at `sigmas = [0, 1]`, `v = [5, 2]`, indices `0` and `1`. -/
theorem constrained_whiten_policy_witness :
    (((noiseModel.Constrained.Mixed [0, 1]).whiten [5, 2]).getD 0 (.fin 0) =
        noiseModel.DVal.inf) ∧
    (((noiseModel.Constrained.Mixed [0, 1]).whiten [5, 2]).getD 1 (.fin 0) =
        .fin (2 / 1)) := by
  constructor
  · exact ((constrained_whiten_policy.1 (noiseModel.Constrained.Mixed [0, 1])
      [5, 2] 0 (by decide) (by decide)).2
        (by simp [noiseModel.Constrained.Mixed])).2 (by norm_num)
  · exact (constrained_whiten_policy.1 (noiseModel.Constrained.Mixed [0, 1])
      [5, 2] 1 (by decide) (by decide)).1
        (by norm_num [noiseModel.Constrained.Mixed])

/-- C2: `Constrained::Whiten` and `Constrained::WhitenInPlace` always fail
with the `UnsupportedOperation` error and never produce a whitened
matrix. -/
theorem constrained_Whiten_unsupported :
    ∀ (m : noiseModel.Constrained) (H : Mat),
      m.Whiten H = .error (.UnsupportedOperation
        "noiseModel::Constrained cannot Whiten") ∧
      m.WhitenInPlace H = .error (.UnsupportedOperation
        "noiseModel::Constrained cannot Whiten") ∧
      (∀ M : Mat, m.Whiten H ≠ .ok M) ∧
      (∀ M : Mat, m.WhitenInPlace H ≠ .ok M) := by
  intro m H
  refine ⟨rfl, rfl, ?_, ?_⟩ <;> intro M h <;> exact Except.noConfusion h

/-- C9 counterexample: no factory validates its inputs.  `Diagonal::Sigmas`
accepts a zero sigma and silently produces a model storing it, and
`Isotropic::Sigma` accepts a zero sigma and a zero dimension, contradicting
the claim that non-Constrained factories reject zero sigmas and require a
positive dimension. -/
theorem factories_no_validation_cex :
    (noiseModel.Diagonal.Sigmas [0]).sigmas = [0] ∧
    (noiseModel.Isotropic.Sigma 2 0).sigma = 0 ∧
    (noiseModel.Isotropic.Sigma 0 0).dim = 0 ∧
    (noiseModel.Unit.Create 0).dim = 0 := by
  exact ⟨rfl, rfl, rfl, rfl⟩

/-- C9 amended: the noise-model factories perform no validation at all:
for every input (including zero sigmas and a zero dimension) they
construct a model that stores the given values unchanged. -/
theorem factories_no_validation :
    ∀ (s : Vec) (n : ℕ) (q : ℚ),
      (noiseModel.Diagonal.Sigmas s).sigmas = s ∧
      (noiseModel.Constrained.Mixed s).sigmas = s ∧
      (noiseModel.Isotropic.Sigma n q).sigma = q ∧
      (noiseModel.Isotropic.Sigma n q).dim = n ∧
      (noiseModel.Unit.Create n).dim = n ∧
      (noiseModel.Constrained.All n).sigmas = List.replicate n 0 := by
  intro s n q
  exact ⟨rfl, rfl, rfl, rfl, rfl, rfl⟩

/-- C10: `Constrained::unwhiten` is the elementwise product
`v[i] * sigmas[i]` inherited from Diagonal; every zero-sigma component of
the result is exactly `0`; it is total (no error, no infeasibility value
in its plain-vector result type) and not injective once a sigma is zero:
with `sigmas = [0, 1]`, `unwhiten [5, 2] = unwhiten [0, 2] = [0, 2]`. -/
theorem constrained_unwhiten_policy :
    (∀ (m : noiseModel.Constrained) (v : Vec),
      m.unwhiten v = List.zipWith (· * ·) v m.sigmas) ∧
    (∀ (m : noiseModel.Constrained) (v : Vec) (i : ℕ),
      i < v.length → i < m.sigmas.length → m.sigmas.getD i 0 = 0 →
      (m.unwhiten v).getD i 1 = 0) ∧
    (noiseModel.Constrained.Mixed [0, 1]).unwhiten [5, 2] = [0, 2] ∧
    (noiseModel.Constrained.Mixed [0, 1]).unwhiten [0, 2] = [0, 2] ∧
    ([5, 2] : Vec) ≠ [0, 2] := by
  refine ⟨fun m v => rfl, ?_,
    by norm_num [noiseModel.Constrained.unwhiten, noiseModel.Diagonal.unwhiten,
      emul, noiseModel.Constrained.Mixed],
    by norm_num [noiseModel.Constrained.unwhiten, noiseModel.Diagonal.unwhiten,
      emul, noiseModel.Constrained.Mixed],
    by norm_num⟩
  intro m v i hv hs h0
  have := getD_zipWith (fun (x y : ℚ) => x * y) v m.sigmas i 1 1 0 hv hs
  simp only [noiseModel.Constrained.unwhiten, noiseModel.Diagonal.unwhiten,
    emul] at *
  rw [this, h0, mul_zero]

/-- C10 witness: the zero-sigma component of the inherited `unwhiten`
result, instantiated at `sigmas = [0, 1]`, `v = [5, 2]`, index `0`. -/
theorem constrained_unwhiten_policy_witness :
    ((noiseModel.Constrained.Mixed [0, 1]).unwhiten [5, 2]).getD 0 1 = 0 := by
  exact constrained_unwhiten_policy.2.1 (noiseModel.Constrained.Mixed [0, 1])
    [5, 2] 0 (by decide) (by decide) (by simp [noiseModel.Constrained.Mixed])

theorem dotQ_map_mul (v : Vec) (c : ℚ) :
    dotQ (v.map (fun x => x * c)) (v.map (fun x => x * c)) = dotQ v v * c * c := by
  induction v with
  | nil => simp [dotQ]
  | cons x xs ih =>
    simp only [List.map_cons, dotQ_cons, ih]
    ring

/-- C6: `Mahalanobis(v) = ⟨whiten(v), whiten(v)⟩` for the Gaussian,
Diagonal, Isotropic and Unit variants, including the specialized
overrides of Isotropic (`⟨v,v⟩ * invsigma²`) and Unit (`⟨v,v⟩`). -/
theorem mahalanobis_consistency :
    (∀ (m : noiseModel.Gaussian) (v : ℕ → ℚ),
      m.Mahalanobis v = dotFn m.dim (m.whiten v) (m.whiten v)) ∧
    (∀ (m : noiseModel.Diagonal) (v : Vec),
      m.Mahalanobis v = dotQ (m.whiten v) (m.whiten v)) ∧
    (∀ (m : noiseModel.Isotropic) (v : Vec),
      m.Mahalanobis v = dotQ (m.whiten v) (m.whiten v)) ∧
    (∀ (m : noiseModel.Unit) (v : Vec),
      m.Mahalanobis v = dotQ (m.whiten v) (m.whiten v)) := by
  refine ⟨fun m v => rfl, fun m v => rfl, ?_, fun m v => rfl⟩
  intro m v
  simp only [noiseModel.Isotropic.Mahalanobis, noiseModel.Isotropic.whiten]
  rw [dotQ_map_mul]

theorem backSubstituteUpper_step (n : ℕ) (R : ℕ → ℕ → ℚ) (b : ℕ → ℚ) (i : ℕ) :
    backSubstituteUpper n R b i =
      (b i - ∑ j ∈ (Finset.Ico (i + 1) n).attach,
          R i j.1 * backSubstituteUpper n R b j.1) / R i i := by
  rw [backSubstituteUpper]

theorem backSubstituteUpper_solves (n : ℕ) (R : ℕ → ℕ → ℚ) (v : ℕ → ℚ)
    (hut : ∀ i < n, ∀ j < n, j < i → R i j = 0)
    (hd : ∀ i < n, R i i ≠ 0) :
    ∀ k i, i < n → n - i ≤ k →
      backSubstituteUpper n R (fun r => ∑ j ∈ Finset.range n, R r j * v j) i
        = v i := by
  intro k
  induction k with
  | zero => intro i hi hk; omega
  | succ k ih =>
    intro i hi hk
    rw [backSubstituteUpper_step]
    have hsum : (∑ j ∈ (Finset.Ico (i + 1) n).attach, R i j.1 *
        backSubstituteUpper n R (fun r => ∑ j' ∈ Finset.range n, R r j' * v j') j.1)
        = ∑ j ∈ Finset.Ico (i + 1) n, R i j * v j := by
      rw [← Finset.sum_attach (Finset.Ico (i + 1) n) (fun j => R i j * v j)]
      refine Finset.sum_congr rfl ?_
      intro j _
      have hj := j.2
      rw [Finset.mem_Ico] at hj
      rw [ih j.1 hj.2 (by omega)]
    rw [hsum]
    show (∑ j ∈ Finset.range n, R i j * v j
        - ∑ j ∈ Finset.Ico (i + 1) n, R i j * v j) / R i i = v i
    have hrow : (∑ j ∈ Finset.range n, R i j * v j)
        = R i i * v i + ∑ j ∈ Finset.Ico (i + 1) n, R i j * v j := by
      rw [Finset.range_eq_Ico,
        ← Finset.sum_Ico_consecutive (fun j => R i j * v j)
          (by omega : 0 ≤ i + 1) (by omega : i + 1 ≤ n)]
      congr 1
      rw [← Finset.range_eq_Ico, Finset.sum_range_succ]
      have hz : ∑ j ∈ Finset.range i, R i j * v j = 0 := by
        refine Finset.sum_eq_zero ?_
        intro j hj
        rw [Finset.mem_range] at hj
        rw [hut i hi j (by omega) hj, zero_mul]
      rw [hz, zero_add]
    rw [hrow, add_sub_cancel_right, mul_div_cancel_left₀ _ (hd i hi)]

theorem emul_reciprocal_roundtrip :
    ∀ (v s : Vec), s.length = v.length → (∀ x ∈ s, x ≠ 0) →
      emul (emul v (reciprocal s)) s = v := by
  intro v
  induction v with
  | nil =>
    intro s h _
    cases s with
    | nil => rfl
    | cons a as => simp at h
  | cons x xs ih =>
    intro s hlen hnz
    cases s with
    | nil => simp at hlen
    | cons a as =>
      simp only [reciprocal, List.map_cons, emul, List.zipWith_cons_cons]
      congr 1
      · rw [mul_one_div, div_mul_cancel₀ x (hnz a (by simp))]
      · have := ih as (by simpa using hlen) (fun y hy => hnz y (by simp [hy]))
        simpa [emul, reciprocal] using this

theorem constrained_roundtrip_aux :
    ∀ (v s : Vec), s.length = v.length →
      (∀ p ∈ List.zip v s, p.2 = 0 → p.1 = 0) →
      emul ((List.zipWith noiseModel.ediv v s).map noiseModel.DVal.toRat) s
        = v := by
  intro v
  induction v with
  | nil =>
    intro s h _
    cases s with
    | nil => rfl
    | cons a as => simp at h
  | cons x xs ih =>
    intro s hlen hz
    cases s with
    | nil => simp at hlen
    | cons a as =>
      simp only [List.zipWith_cons_cons, List.map_cons, emul]
      congr 1
      · by_cases ha : a = 0
        · have hx : x = 0 := hz (x, a) (by simp) ha
          subst ha
          subst hx
          simp [noiseModel.ediv, noiseModel.DVal.toRat]
        · simp only [noiseModel.ediv, if_neg ha, noiseModel.DVal.toRat]
          exact div_mul_cancel₀ x ha
      · have := ih as (by simpa using hlen)
          (fun p hp h0 => hz p (by simp [hp]) h0)
        simpa [emul] using this

theorem isotropic_roundtrip_aux (v : Vec) (s : ℚ) (hs : s ≠ 0) :
    (v.map (fun x => x * (1 / s))).map (fun x => x * s) = v := by
  rw [List.map_map]
  have hcomp : ((fun x => x * s) ∘ fun x => x * (1 / s)) = (id : ℚ → ℚ) := by
    funext x
    simp only [Function.comp, id]
    rw [mul_one_div, div_mul_cancel₀ x hs]
  rw [hcomp, List.map_id]

/-- C5: `unwhiten (whiten v) = v` across the Gaussian family.  For
Gaussian this needs the documented invariants of `R` (upper triangular
with nonzero diagonal); for Diagonal and Isotropic it needs nonzero
sigmas; for Constrained it holds whenever no zero-sigma component meets a
nonzero entry of `v` (the excluded infeasible case); for Unit it is
unconditional. -/
theorem gaussian_family_roundtrip :
    (∀ (m : noiseModel.Gaussian) (v : ℕ → ℚ),
      (∀ i < m.dim, ∀ j < m.dim, j < i → m.sqrt_information i j = 0) →
      (∀ i < m.dim, m.sqrt_information i i ≠ 0) →
      ∀ i < m.dim, m.unwhiten (m.whiten v) i = v i) ∧
    (∀ (m : noiseModel.Diagonal) (v : Vec),
      m.sigmas.length = v.length → (∀ x ∈ m.sigmas, x ≠ 0) →
      m.unwhiten (m.whiten v) = v) ∧
    (∀ (m : noiseModel.Constrained) (v : Vec),
      m.sigmas.length = v.length →
      (∀ p ∈ List.zip v m.sigmas, p.2 = 0 → p.1 = 0) →
      m.unwhiten ((m.whiten v).map noiseModel.DVal.toRat) = v) ∧
    (∀ (m : noiseModel.Isotropic) (v : Vec),
      m.sigma ≠ 0 → m.unwhiten (m.whiten v) = v) ∧
    (∀ (m : noiseModel.Unit) (v : Vec),
      m.unwhiten (m.whiten v) = v) := by
  refine ⟨?_, ?_, ?_, ?_, fun m v => rfl⟩
  · intro m v hut hd i hi
    exact backSubstituteUpper_solves m.dim m.sqrt_information v hut hd
      m.dim i hi (by omega)
  · intro m v hlen hnz
    exact emul_reciprocal_roundtrip v m.sigmas hlen hnz
  · intro m v hlen hz
    exact constrained_roundtrip_aux v m.sigmas hlen hz
  · intro m v hs
    exact isotropic_roundtrip_aux v m.sigma hs

/-- C5 witness: the round-trip conjuncts instantiated at concrete models
and vectors: a 2-dimensional Gaussian with upper-triangular nonsingular
`R`, Diagonal sigmas `[1, 2]`, Constrained sigmas `[0, 1]` with a
feasible vector, Isotropic sigma `2`, and a Unit model. -/
theorem gaussian_family_roundtrip_witness :
    ((noiseModel.Gaussian.mk 2 (fun i j =>
        if j < i then 0
        else if i = 0 ∧ j = 0 then 2
        else if i = 0 ∧ j = 1 then 1
        else if i = 1 ∧ j = 1 then 3 else 0)).unwhiten
      ((noiseModel.Gaussian.mk 2 (fun i j =>
        if j < i then 0
        else if i = 0 ∧ j = 0 then 2
        else if i = 0 ∧ j = 1 then 1
        else if i = 1 ∧ j = 1 then 3 else 0)).whiten
        (fun i => if i = 0 then 5 else 7)) 0
      = (fun i : ℕ => if i = 0 then (5 : ℚ) else 7) 0) ∧
    ((noiseModel.Diagonal.Sigmas [1, 2]).unwhiten
      ((noiseModel.Diagonal.Sigmas [1, 2]).whiten [3, 4]) = [3, 4]) ∧
    ((noiseModel.Constrained.Mixed [0, 1]).unwhiten
      (((noiseModel.Constrained.Mixed [0, 1]).whiten [0, 2]).map
        noiseModel.DVal.toRat) = [0, 2]) ∧
    ((noiseModel.Isotropic.Sigma 2 2).unwhiten
      ((noiseModel.Isotropic.Sigma 2 2).whiten [3, 4]) = [3, 4]) ∧
    ((noiseModel.Unit.Create 2).unwhiten
      ((noiseModel.Unit.Create 2).whiten [3, 4]) = [3, 4]) := by
  refine ⟨?_, ?_, ?_, ?_, ?_⟩
  · exact gaussian_family_roundtrip.1 _ _ (by decide) (by decide) 0 (by decide)
  · exact gaussian_family_roundtrip.2.1 (noiseModel.Diagonal.Sigmas [1, 2])
      [3, 4] (by decide) (by decide)
  · exact gaussian_family_roundtrip.2.2.1 (noiseModel.Constrained.Mixed [0, 1])
      [0, 2] (by decide) (by decide)
  · exact gaussian_family_roundtrip.2.2.2.1 (noiseModel.Isotropic.Sigma 2 2)
      [3, 4] (by decide)
  · exact gaussian_family_roundtrip.2.2.2.2 (noiseModel.Unit.Create 2) [3, 4]

/-- C3: `LinearizedJacobianFactor::error(c)` is `0.5 * ⟨r, r⟩` where
`r = -b + Σᵢ Aᵢ · dᵢ` accumulates, per key, the block product with the
manifold local-coordinates delta `dᵢ` from the stored linearization point
to the estimate (never a raw subtraction on the points themselves); in
the 2-key example with identity blocks, `b = 0`, linearized at
`(0, 0), (0, 0)` and evaluated at `(1, 0), (0, 0)`, the error is `1/2`. -/
theorem jacobian_error_formula :
    (∀ {P : Type} [inst : Value P] (f : LinearizedJacobianFactor P)
        (c : ℕ → P),
      f.error c = (1 / 2) * dotQ
        (f.keys.foldl (fun acc k => vadd acc (matVec (f.A k)
          (Value.localCoordinates (f.lin_points k) (c k)))) (vneg f.b))
        (f.keys.foldl (fun acc k => vadd acc (matVec (f.A k)
          (Value.localCoordinates (f.lin_points k) (c k)))) (vneg f.b))) ∧
    (LinearizedJacobianFactor.error
      (⟨[1, 2], fun _ => ([0, 0] : Vec), fun _ => [[1, 0], [0, 1]], [0, 0]⟩ :
        LinearizedJacobianFactor Vec)
      (fun k => if k = 1 then [1, 0] else [0, 0]) = 1 / 2) := by
  constructor
  · intro P inst f c
    rfl
  · norm_num [LinearizedJacobianFactor.error,
      LinearizedJacobianFactor.error_vector, Value.localCoordinates,
      instValueVec, vsub, vadd, vneg, matVec, dotQ]

theorem foldl_error_vector_zero {P : Type} [Value P]
    (f : LinearizedJacobianFactor P) (c : ℕ → P) :
    ∀ ks : List ℕ, (∀ k ∈ ks, (f.A k).length = f.b.length) →
      (∀ k ∈ ks, Value.localCoordinates (f.lin_points k) (c k) =
        List.replicate (Value.dim (f.lin_points k)) 0) →
      ks.foldl (fun acc k => vadd acc (matVec (f.A k)
        (Value.localCoordinates (f.lin_points k) (c k)))) (vneg f.b)
        = vneg f.b := by
  intro ks
  induction ks with
  | nil => intro _ _; rfl
  | cons k ks ih =>
    intro h1 h2
    rw [List.foldl_cons]
    have hz : ∀ a ∈ Value.localCoordinates (f.lin_points k) (c k), a = 0 := by
      rw [h2 k (by simp)]
      intro a ha
      exact List.eq_of_mem_replicate ha
    rw [matVec_all_zero _ _ hz,
      vadd_replicate_zero _ _ (by rw [h1 k (by simp)]; simp [vneg])]
    exact ih (fun a ha => h1 a (by simp [ha])) (fun a ha => h2 a (by simp [ha]))

/-- C7: relinearizing at the estimate used for construction reproduces
the wrapped factor.  Jacobian variant: the `A` blocks are re-emitted
unchanged, the right-hand side `-error_vector` collapses to `b` (every
per-key delta is zero), and the result carries `Unit::Create(dim())`.
Hessian variant: the emitted `(G, g, f)` equal the stored blocks. -/
theorem relinearize_idempotence :
    (∀ {P : Type} [inst : Value P] (f : LinearizedJacobianFactor P)
        (c : ℕ → P) (ordering : ℕ → ℕ),
      (∀ k ∈ f.keys, (f.A k).length = f.b.length) →
      (∀ k ∈ f.keys, c k = f.lin_points k) →
      (∀ k ∈ f.keys, Value.localCoordinates (f.lin_points k) (f.lin_points k)
        = List.replicate (Value.dim (f.lin_points k)) 0) →
      (f.linearize c ordering).terms
          = f.keys.map (fun k => (ordering k, f.A k)) ∧
        (f.linearize c ordering).b = f.b ∧
        (f.linearize c ordering).model = noiseModel.Unit.Create f.dim) ∧
    (∀ {P : Type} [inst : Value P] (m : LinearizedHessianFactor P)
        (c : ℕ → P) (ordering : ℕ → ℕ),
      m.g.length ≤ m.G.length →
      (∀ k ∈ m.keys, c k = m.lin_points k) →
      (∀ k ∈ m.keys, Value.localCoordinates (m.lin_points k) (m.lin_points k)
        = List.replicate (Value.dim (m.lin_points k)) 0) →
      (m.linearize c ordering).js = m.keys.map ordering ∧
        (m.linearize c ordering).Gs = m.G ∧
        (m.linearize c ordering).gs = m.g ∧
        (m.linearize c ordering).f = m.f) := by
  constructor
  · intro P inst f c ordering hrows hc hloc
    refine ⟨rfl, ?_, rfl⟩
    show vneg (f.error_vector c) = f.b
    have hev : f.error_vector c = vneg f.b := by
      unfold LinearizedJacobianFactor.error_vector
      refine foldl_error_vector_zero f c f.keys hrows ?_
      intro k hk
      rw [hc k hk]
      exact hloc k hk
    rw [hev, vneg_vneg]
  · intro P inst m c ordering hg hc hloc
    have hdx : ∀ a ∈ m.dx c, a = 0 := by
      intro a ha
      unfold LinearizedHessianFactor.dx at ha
      rcases List.mem_flatten.mp ha with ⟨l, hl, hal⟩
      rcases List.mem_map.mp hl with ⟨k, hk, hlk⟩
      rw [← hlk, hc k hk, hloc k hk] at hal
      exact List.eq_of_mem_replicate hal
    have hdot : ∀ w : Vec, dotQ (m.dx c) w = 0 :=
      fun w => dotQ_zero_left _ w hdx
    have hmv : matVec (selfadjointUpper m.squaredTerm) (m.dx c)
        = List.replicate (selfadjointUpper m.squaredTerm).length 0 :=
      matVec_all_zero _ _ hdx
    refine ⟨rfl, rfl, ?_, ?_⟩
    · show vsub m.linearTerm
        (matVec (selfadjointUpper m.squaredTerm) (m.dx c)) = m.g
      rw [hmv]
      refine vsub_replicate_zero _ _ ?_
      simp only [selfadjointUpper, List.length_map, List.length_range]
      exact hg
    · show m.constantTerm - 2 * dotQ (m.dx c) m.linearTerm
        + dotQ (m.dx c) (matVec (selfadjointUpper m.squaredTerm) (m.dx c))
        = m.f
      rw [hdot, hdot]
      show m.f - 2 * 0 + 0 = m.f
      ring

/-- C7 witness: a 2-key Jacobian factor and a 1-key Hessian factor over
plain vectors, relinearized at their own linearization points. -/
theorem relinearize_idempotence_witness :
    (((⟨[1, 2], fun k => if k = 1 then [1, 2] else [3, 4],
        fun _ => [[1, 0], [0, 1]], [4, 5]⟩ :
          LinearizedJacobianFactor Vec).linearize
        (fun k => if k = 1 then [1, 2] else [3, 4]) id).b = [4, 5]) ∧
    (((⟨[7], fun _ => ([1, 2] : Vec), [[2, 1], [1, 3]], [4, 5], 10⟩ :
        LinearizedHessianFactor Vec).linearize
        (fun _ => ([1, 2] : Vec)) id).gs = [4, 5]) := by
  constructor
  · exact (relinearize_idempotence.1
      (⟨[1, 2], fun k => if k = 1 then [1, 2] else [3, 4],
        fun _ => [[1, 0], [0, 1]], [4, 5]⟩ : LinearizedJacobianFactor Vec)
      (fun k => if k = 1 then [1, 2] else [3, 4]) id
      (by decide) (fun k _ => rfl)
      (by
        intro k hk
        fin_cases hk <;>
          simp [Value.localCoordinates, Value.dim, instValueVec, vsub,
            List.replicate])).2.1
  · exact (relinearize_idempotence.2
      (⟨[7], fun _ => ([1, 2] : Vec), [[2, 1], [1, 3]], [4, 5], 10⟩ :
        LinearizedHessianFactor Vec)
      (fun _ => ([1, 2] : Vec)) id
      (by decide) (fun k _ => rfl)
      (by
        intro k hk
        simp [Value.localCoordinates, Value.dim, instValueVec, vsub,
          List.replicate])).2.2.1

/-- C4: `LinearizedHessianFactor::linearize` emits exactly the shifted
quadratic-form blocks `f - 2⟨dx, g⟩ + dxᵀ G dx`, `g - G dx` and `G`
unchanged, where `dx` stacks the per-key local-coordinates deltas from
the stored linearization point to the estimate, in key order. -/
theorem hessian_linearize_shift :
    ∀ {P : Type} [inst : Value P] (m : LinearizedHessianFactor P)
      (c : ℕ → P) (ordering : ℕ → ℕ),
      selfadjointUpper m.G = m.G →
      (m.linearize c ordering).js = m.keys.map ordering ∧
      (m.linearize c ordering).Gs = m.G ∧
      (m.linearize c ordering).gs = vsub m.g (matVec m.G
        ((m.keys.map (fun k =>
          Value.localCoordinates (m.lin_points k) (c k))).flatten)) ∧
      (m.linearize c ordering).f = m.f
        - 2 * dotQ ((m.keys.map (fun k =>
            Value.localCoordinates (m.lin_points k) (c k))).flatten) m.g
        + dotQ ((m.keys.map (fun k =>
            Value.localCoordinates (m.lin_points k) (c k))).flatten)
          (matVec m.G ((m.keys.map (fun k =>
            Value.localCoordinates (m.lin_points k) (c k))).flatten)) := by
  intro P inst m c ordering hsym
  refine ⟨rfl, rfl, ?_, ?_⟩
  · show vsub m.linearTerm
      (matVec (selfadjointUpper m.squaredTerm) (m.dx c)) = _
    rw [show selfadjointUpper m.squaredTerm = m.G from hsym]
    rfl
  · show m.constantTerm - 2 * dotQ (m.dx c) m.linearTerm
      + dotQ (m.dx c) (matVec (selfadjointUpper m.squaredTerm) (m.dx c)) = _
    rw [show selfadjointUpper m.squaredTerm = m.G from hsym]
    rfl

/-- C4 witness: the shift formulas at a concrete 1-key factor with a
symmetric stored `G`. -/
theorem hessian_linearize_shift_witness :
    ((⟨[7], fun _ => ([1, 2] : Vec), [[2, 1], [1, 3]], [4, 5], 10⟩ :
      LinearizedHessianFactor Vec).linearize (fun _ => ([2, 2] : Vec)) id).Gs
      = [[2, 1], [1, 3]] := by
  exact (hessian_linearize_shift
    (⟨[7], fun _ => ([1, 2] : Vec), [[2, 1], [1, 3]], [4, 5], 10⟩ :
      LinearizedHessianFactor Vec)
    (fun _ => ([2, 2] : Vec)) id (by decide)).2.1

/-- C8: `LinearizedHessianFactor::equals` compares the selfadjoint view
of the augmented information matrices with the trailing scalar corner
(which encodes `f`) forced to zero on both sides — so the compared
matrices do not depend on `f` at all — while `f` is compared separately
through the base-class check: factors whose constant terms differ by more
than `tol` are unequal, and `equals = true` forces `|fₐ - f_b| ≤ tol`. -/
theorem hessian_equals_corner_policy :
    (∀ {P : Type} [inst : Value P] (a b : LinearizedHessianFactor P),
      a.G = b.G → a.g = b.g → a.comparedMatrix = b.comparedMatrix) ∧
    (∀ {P : Type} [inst : Value P] (a b : LinearizedHessianFactor P)
        (tol : ℚ),
      tol < |a.f - b.f| → a.equals b tol = false) ∧
    (∀ {P : Type} [inst : Value P] (a b : LinearizedHessianFactor P)
        (tol : ℚ),
      a.equals b tol = true → |a.f - b.f| ≤ tol) := by
  refine ⟨?_, ?_, ?_⟩
  · intro P inst a b hG hg
    funext i j
    simp only [LinearizedHessianFactor.comparedMatrix,
      LinearizedHessianFactor.symInfo, LinearizedHessianFactor.infoEntry,
      hG, hg]
    split_ifs <;> simp_all
  · intro P inst a b tol hf
    simp only [LinearizedHessianFactor.equals,
      LinearizedHessianFactor.baseEquals]
    rw [decide_eq_false (not_le.mpr hf)]
    simp
  · intro P inst a b tol h
    simp only [LinearizedHessianFactor.equals,
      LinearizedHessianFactor.baseEquals, Bool.and_eq_true,
      decide_eq_true_eq] at h
    exact h.1.1.2

/-- C8 witness: two concrete factors differing only in `f`: their
compared matrices coincide, yet `equals` rejects them at a tolerance
below the difference; the third conjunct applied reflexively. -/
theorem hessian_equals_corner_policy_witness :
    ((⟨[0], fun _ => ([0] : Vec), [[2, 1], [1, 3]], [4, 5], 10⟩ :
        LinearizedHessianFactor Vec).comparedMatrix
      = (⟨[0], fun _ => ([0] : Vec), [[2, 1], [1, 3]], [4, 5], 11⟩ :
        LinearizedHessianFactor Vec).comparedMatrix) ∧
    ((⟨[0], fun _ => ([0] : Vec), [[2, 1], [1, 3]], [4, 5], 10⟩ :
        LinearizedHessianFactor Vec).equals
      (⟨[0], fun _ => ([0] : Vec), [[2, 1], [1, 3]], [4, 5], 11⟩ :
        LinearizedHessianFactor Vec) (1 / 2) = false) ∧
    |(10 : ℚ) - 10| ≤ 1 := by
  refine ⟨?_, ?_, ?_⟩
  · exact hessian_equals_corner_policy.1
      (⟨[0], fun _ => ([0] : Vec), [[2, 1], [1, 3]], [4, 5], 10⟩ :
        LinearizedHessianFactor Vec)
      (⟨[0], fun _ => ([0] : Vec), [[2, 1], [1, 3]], [4, 5], 11⟩ :
        LinearizedHessianFactor Vec) rfl rfl
  · exact hessian_equals_corner_policy.2.1
      (⟨[0], fun _ => ([0] : Vec), [[2, 1], [1, 3]], [4, 5], 10⟩ :
        LinearizedHessianFactor Vec)
      (⟨[0], fun _ => ([0] : Vec), [[2, 1], [1, 3]], [4, 5], 11⟩ :
        LinearizedHessianFactor Vec) (1 / 2) (by norm_num)
  · exact hessian_equals_corner_policy.2.2
      (⟨[0], fun _ => ([0] : Vec), [[2, 1], [1, 3]], [4, 5], 10⟩ :
        LinearizedHessianFactor Vec)
      (⟨[0], fun _ => ([0] : Vec), [[2, 1], [1, 3]], [4, 5], 10⟩ :
        LinearizedHessianFactor Vec) 1
      (by
        norm_num [LinearizedHessianFactor.equals,
          LinearizedHessianFactor.baseEquals,
          LinearizedHessianFactor.linPointsEquals, equalWithAbsTolFn,
          Value.equals, instValueVec, equal_with_abs_tol])

end gtsam
